import Mathlib

set_option maxRecDepth 8000

/-
Verification development for the retrieval-and-synthesis pipeline of the
echother-back repository.  The definitions below are a shallow embedding of
src/services/rag_service.py and src/services/intelligent_ticket_generator.py.

Modelling conventions:
* Python floats are modelled exactly: as rationals on the lexical scoring
  path and as real numbers on the cosine-similarity path.
* Python strings are Lean strings / lists of characters; case conversion is
  the ASCII one (all texts involved in the claims are ASCII).
* Python dict results are modelled as association lists of key/value pairs,
  so that presence or absence of a key is expressible.
* A Python function that can raise is modelled with `Except String`; the
  surrounding `try/except` becomes a `match` on that result.
-/

/-- ASCII lower-casing of one character, modelling `str.lower` / `re.IGNORECASE`. -/
def lowerChar (c : Char) : Char := c.toLower

/-- `str.lower` on a list of characters. -/
def lowerL (l : List Char) : List Char := l.map lowerChar

/-- `str.lower` on a string. -/
def pyLower (s : String) : String := (lowerL s.data).asString

/-- Python whitespace (ASCII fragment), the character class of `str.strip` and `\s`. -/
def isPyWS (c : Char) : Bool :=
  c = ' ' || c = '\t' || c = '\n' || c = '\r' || c = Char.ofNat 11 || c = Char.ofNat 12

/-- `str.strip()` on a list of characters. -/
def pyStrip (l : List Char) : List Char := (l.dropWhile isPyWS).rdropWhile isPyWS

/-- `str.strip()` on a string. -/
def pyStripS (s : String) : String := (pyStrip s.data).asString

/-- Substring test, Python's `pat in s` on strings, over character lists. -/
def containsSub (pat : List Char) : List Char → Bool
  | [] => pat.isEmpty
  | c :: cs => pat.isPrefixOf (c :: cs) || containsSub pat cs

/-- Substring test on strings. -/
def occursStr (pat s : String) : Bool := containsSub pat.data s.data

theorem containsSub_iff (pat : List Char) :
    ∀ s : List Char, containsSub pat s = true ↔ pat <:+: s := by
  intro s
  induction s with
  | nil =>
      simp [containsSub, List.isEmpty_iff]
  | cons c cs ih =>
      rw [List.infix_cons_iff]
      simp only [containsSub, Bool.or_eq_true, List.isPrefixOf_iff_prefix, ih]

/-- A record as supplied by the chunk source (a Python dict with the keys used by
`search_relevant_code` via `.get`, and an optional `"embedding"` entry).  `K` is
the numeric type used for embedding coordinates. -/
structure ChunkRec (K : Type) where
  filename : String
  code : String
  language : String
  embedding : Option (List K)
  metadata : List (String × String)
  location : String
deriving DecidableEq

/-- The `CodeChunk` dataclass of rag_service.py. -/
structure CodeChunk (K : Type) where
  filename : String
  code : String
  language : String
  score : K
  metadata : List (String × String)
  location : String
deriving DecidableEq

/-- `RAGService._classify_intent` (rag_service.py lines 50-65). -/
def _classify_intent (request : String) : String :=
  let r := pyLower request
  if [("add"), ("create"), ("implement"), ("build")].any (fun w => occursStr w r) then
    ("feature_implementation")
  else if [("fix"), ("bug"), ("error"), ("issue")].any (fun w => occursStr w r) then
    ("bug_fix")
  else if [("refactor"), ("improve"), ("optimize")].any (fun w => occursStr w r) then
    ("refactoring")
  else if [("security"), ("vulnerability"), ("auth")].any (fun w => occursStr w r) then
    ("security_update")
  else if [("performance"), ("speed"), ("efficiency")].any (fun w => occursStr w r) then
    ("performance_optimization")
  else
    ("general_implementation")

/-- `RAGService._detect_architectural_patterns` (rag_service.py lines 261-288).
The list of filenames is scanned with lowercased substring heuristics and the
pattern labels are appended in the fixed source order. -/
def _detect_architectural_patterns (code_chunks : List (CodeChunk ℚ)) : List String :=
  let filenames := code_chunks.map (fun c => c.filename)
  (if (filenames.any (fun f => occursStr ("model") (pyLower f)) &&
       filenames.any (fun f => occursStr ("view") (pyLower f)) &&
       filenames.any (fun f => occursStr ("controller") (pyLower f))) then
     [("MVC")] else []) ++
  (if (filenames.any (fun f => occursStr ("component") (pyLower f)) ||
       filenames.any (fun f => occursStr ("components") (pyLower f))) then
     [("Component-based")] else []) ++
  (if filenames.any (fun f => occursStr ("service") (pyLower f)) then
     [("Service Layer")] else []) ++
  (if filenames.any (fun f => occursStr ("repository") (pyLower f)) then
     [("Repository Pattern")] else []) ++
  (if (filenames.any (fun f => occursStr ("domain") (pyLower f)) &&
       filenames.any (fun f => occursStr ("application") (pyLower f))) then
     [("Clean Architecture")] else [])

/-- Characters matched by the regex class `[a-z0-9_]` of the lexical tokenizer. -/
def isTermChar (c : Char) : Bool :=
  (('a' ≤ c && c ≤ 'z') || ('0' ≤ c && c ≤ '9') || c = '_')

/-- `re.findall(r"[a-z0-9_]+", q)`: the maximal runs of term characters, in
order.  `acc` is the current run, reversed. -/
def tokAux : List Char → List Char → List (List Char)
  | [], acc => if acc.isEmpty then [] else [acc.reverse]
  | c :: cs, acc =>
      if isTermChar c then tokAux cs (c :: acc)
      else if acc.isEmpty then tokAux cs []
      else acc.reverse :: tokAux cs []

/-- The tokenizer of the lexical fallback mode (rag_service.py line 139). -/
def lexTokens (l : List Char) : List (List Char) := tokAux l []

/-- `set(re.findall(...))` (only the distinct terms matter; kept in first-occurrence
order). -/
def lexTerms (q : String) : List (List Char) := (lexTokens (lowerL q.data)).dedup

/-- The lowercased `filename\ncode` text of one candidate (rag_service.py line 141). -/
def lexText (c : ChunkRec ℚ) : List Char :=
  lowerL ((c.filename ++ ("\n") ++ c.code).data)

/-- `matches = sum(1 for t in q_terms if t and t in text)` (line 142). -/
def lexMatches (q : String) (c : ChunkRec ℚ) : ℕ :=
  (lexTerms q).countP (fun t => !t.isEmpty && containsSub t (lexText c))

/-- `length_penalty = min(len(text) / 10000.0, 1.0)` (line 143). -/
def lengthScore (c : ChunkRec ℚ) : ℚ :=
  min (((lexText c).length : ℚ) / 10000) 1

/-- `score = (matches / (len(q_terms) or 1)) * 0.7 + 0.3 * length_penalty` (line 144). -/
def lexScore (q : String) (c : ChunkRec ℚ) : ℚ :=
  ((lexMatches q c : ℚ) / (if (lexTerms q).length = 0 then 1 else ((lexTerms q).length : ℚ)))
      * (7/10)
    + (3/10) * lengthScore c

/-- One step of the stable descending insertion used to model
`similarities.sort(key=lambda x: x[0], reverse=True)`. -/
def insDesc {K : Type} [LinearOrder K] {α : Type} (p : K × α) : List (K × α) → List (K × α)
  | [] => [p]
  | q :: qs => if q.1 < p.1 then p :: q :: qs else q :: insDesc p qs

/-- Stable sort of the `(score, chunk)` pairs, descending by score. -/
def sortDescBy {K : Type} [LinearOrder K] {α : Type} (l : List (K × α)) : List (K × α) :=
  l.foldr insDesc []

/-- Materialization of a surviving `(score, chunk)` pair as a `CodeChunk`
(rag_service.py lines 155-162); `float(score)` is the identity here. -/
def toCodeChunk {K : Type} (p : K × ChunkRec K) : CodeChunk K :=
  ⟨p.2.filename, p.2.code, p.2.language, p.1, p.2.metadata, p.2.location⟩

/-- The shared tail of `search_relevant_code` (lines 147-164): sort descending,
slice to `top_k`, keep scores above the 0.3 threshold, materialize. -/
def searchTail {K : Type} [LinearOrderedField K]
    (sims : List (K × ChunkRec K)) (top_k : ℕ) : List (CodeChunk K) :=
  (((sortDescBy sims).take top_k).filter (fun p => (3 : K)/10 < p.1)).map toCodeChunk

/-- The `(score, chunk)` list built by the lexical branch (lines 137-145). -/
def lexSims (q : String) (cands : List (ChunkRec ℚ)) : List (ℚ × ChunkRec ℚ) :=
  cands.map (fun c => (lexScore q c, c))

/-- `RAGService.search_relevant_code` in the lexical fallback mode
(`self.embedding_model is None`, which is how the constructor always leaves it).
The Python parameter `top_k` defaults to 15. -/
def search_relevant_code_lex (q : String) (cands : List (ChunkRec ℚ))
    (top_k : ℕ) : List (CodeChunk ℚ) :=
  searchTail (lexSims q cands) top_k

/-- `np.dot` on two 1-d arrays of equal length (the mismatched-length error is
modelled at the call site, in `semSims`). -/
def dotL (v w : List ℝ) : ℝ := (List.zipWith (fun a b => a * b) v w).sum

/-- Sum of squares of the entries. -/
def sumSq (v : List ℝ) : ℝ := (v.map (fun a => a ^ 2)).sum

/-- `np.linalg.norm`: the L2 norm. -/
noncomputable def normL2 (v : List ℝ) : ℝ := Real.sqrt (sumSq v)

/-- `RAGService._cosine_similarity` (rag_service.py lines 170-179). -/
noncomputable def _cosine_similarity (vec1 vec2 : List ℝ) : ℝ :=
  if normL2 vec1 = 0 ∨ normL2 vec2 = 0 then 0
  else dotL vec1 vec2 / (normL2 vec1 * normL2 vec2)

/-- The `(similarity, chunk)` list built by the semantic branch
(rag_service.py lines 130-136).  Chunks without an `"embedding"` key are
skipped; a chunk embedding whose shape does not match the query embedding makes
`np.dot` raise, modelled by the `Except.error` outcome. -/
noncomputable def semSims (qe : List ℝ) :
    List (ChunkRec ℝ) → Except String (List (ℝ × ChunkRec ℝ))
  | [] => .ok []
  | c :: cs =>
      match c.embedding with
      | none => semSims qe cs
      | some emb =>
          if emb.length = qe.length then
            match semSims qe cs with
            | .ok rest => .ok ((_cosine_similarity qe emb, c) :: rest)
            | .error e => .error e
          else .error ("shapes not aligned")

/-- The body of `search_relevant_code` in semantic mode, i.e. the contents of
the `try` block: score, sort, slice, threshold, materialize.  `encode` models
`self.embedding_model.encode([query])[0]`. -/
noncomputable def searchSemBody (encode : String → List ℝ) (q : String)
    (cands : List (ChunkRec ℝ)) (top_k : ℕ) : Except String (List (CodeChunk ℝ)) :=
  match semSims (encode q) cands with
  | .ok sims => .ok (searchTail sims top_k)
  | .error e => .error e

/-- `RAGService.search_relevant_code` in semantic mode, with the surrounding
`try/except` (lines 128 and 166-168): any exception yields the empty list. -/
noncomputable def search_relevant_code_sem (encode : String → List ℝ) (q : String)
    (cands : List (ChunkRec ℝ)) (top_k : ℕ) : List (CodeChunk ℝ) :=
  match searchSemBody encode q cands top_k with
  | .ok r => r
  | .error _ => []

/-- Python `str.split(sep)` over character lists (for a one-character
separator): fields between separator occurrences, empties kept, so the result
is never empty.  `acc` is the current field, reversed. -/
def splitChar (sep : Char) : List Char → List Char → List (List Char)
  | [], acc => [acc.reverse]
  | c :: cs, acc =>
      if c = sep then acc.reverse :: splitChar sep cs []
      else splitChar sep cs (c :: acc)

/-- `chunk.filename.split('/')[-1]` (Python `split` never returns an empty list). -/
def pyBasename (f : String) : String := ((splitChar '/' f.data []).getLastD []).asString

/-- The grouping key `f"{chunk.language}_{chunk.filename.split('/')[-1]}"`
(rag_service.py line 330). -/
def simKey (c : CodeChunk ℚ) : String := c.language ++ ("_") ++ pyBasename c.filename

/-- Insert a qualifying chunk into the insertion-ordered group list
(`grouped[key].append(chunk)`, with a new key appended at the end).  Each group
is kept as `(key, first chunk, later chunks)`. -/
def addToGroups : List (String × CodeChunk ℚ × List (CodeChunk ℚ)) → CodeChunk ℚ →
    List (String × CodeChunk ℚ × List (CodeChunk ℚ))
  | [], c => [(simKey c, c, [])]
  | g :: gs, c =>
      if simKey c = g.1 then (g.1, g.2.1, g.2.2 ++ [c]) :: gs
      else g :: addToGroups gs c

/-- The `grouped` dict of `_extract_similar_implementations`
(rag_service.py lines 327-333): only chunks with score above 0.7 are grouped. -/
def buildGroups (l : List (CodeChunk ℚ)) : List (String × CodeChunk ℚ × List (CodeChunk ℚ)) :=
  l.foldl (fun gs c => if (7 : ℚ)/10 < c.score then addToGroups gs c else gs) []

/-- Python `max(chunks, key=lambda x: x.score)`: the first chunk attaining the
maximal score. -/
def maxByScore (c0 : CodeChunk ℚ) (cs : List (CodeChunk ℚ)) : CodeChunk ℚ :=
  cs.foldl (fun best c => if best.score < c.score then c else best) c0

/-- `RAGService._extract_similar_implementations` (rag_service.py lines 321-340). -/
def _extract_similar_implementations (code_chunks : List (CodeChunk ℚ)) :
    List (CodeChunk ℚ) :=
  ((buildGroups code_chunks).map (fun g => maxByScore g.2.1 g.2.2)).take 5

/-- Specification-side description of "group-insertion order": the distinct
grouping keys of the high-scoring chunks, in order of first occurrence. -/
def firstOccKeys (l : List (CodeChunk ℚ)) : List String :=
  l.foldl
    (fun ks c => if (7 : ℚ)/10 < c.score ∧ ¬ (simKey c ∈ ks) then ks ++ [simKey c] else ks)
    []

/-- The backquote character. -/
def btick : Char := Char.ofNat 96

/-- The nine disallowed bold-label prefixes of `_sanitize_ticket` (each Python
pattern is the literal below followed by `.*\n?`), in the source's order. -/
def disallowedLits : List (List Char) :=
  [("**Assigned To:**").data, ("**Due Date:**").data, ("**Tags:**").data,
   ("**Ticket ID:**").data, ("**Project:**").data, ("**Component:**").data,
   ("**Priority:**").data, ("**Complexity:**").data, ("**Status:**").data]

/-- Drop one leading newline if present (the `\n?` of the label patterns). -/
def dropOneNL : List Char → List Char
  | [] => []
  | c :: cs => if c = '\n' then cs else c :: cs

/-- `re.sub(r"\*\*Label:\*\*.*\n?", "", s)` for one label literal `lit`:
left-to-right scan; at a match the literal, the rest of the line and one
optional newline are removed and scanning resumes after the match.  The fuel
argument — always instantiated with the length of the scanned text, which
bounds the number of scan steps — makes the recursion structural; exhausted
fuel returns the remaining text unchanged and is never reached with a nonempty
remainder. -/
def subLabelF (lit : List Char) : Nat → List Char → List Char
  | 0, s => s
  | _ + 1, [] => []
  | f + 1, c :: cs =>
      if lit.isPrefixOf (c :: cs) then
        subLabelF lit f (dropOneNL (((c :: cs).drop lit.length).dropWhile (fun a => a != '\n')))
      else c :: subLabelF lit f cs

/-- Does `l` begin with the case-insensitive header `##\s*Example Code Snippet`?
(The greedy `\s*` is maximal: the literal starts with a non-whitespace
character, so no backtracking stop short of the maximal run can match.) -/
def isExHeader (l : List Char) : Bool :=
  (("##").data).isPrefixOf l &&
  (("example code snippet").data).isPrefixOf
    (lowerL (((l.drop 2).dropWhile isPyWS).take 20))

/-- The text following a matched example-section header. -/
def afterExHeader (l : List Char) : List Char :=
  ((l.drop 2).dropWhile isPyWS).drop 20

/-- Earliest `\n##`; returns the text after it. -/
def findCloseNL : List Char → Option (List Char)
  | [] => none
  | c :: cs =>
      if c = '\n' && [ '#', '#' ].isPrefixOf cs then some (cs.drop 2)
      else findCloseNL cs

/-- `re.sub(r"(?si)##\s*Example Code Snippet.*?(?:\n##|\Z)", "", s)`: each
match runs from a header lazily to just after the earliest following `\n##`
(which is consumed with it), or else to the end of the text.  Fuel as in
`subLabelF`. -/
def subExampleF : Nat → List Char → List Char
  | 0, s => s
  | _ + 1, [] => []
  | f + 1, c :: cs =>
      if isExHeader (c :: cs) then
        match findCloseNL (afterExHeader (c :: cs)) with
        | some rest => subExampleF f rest
        | none => []
      else c :: subExampleF f cs

/-- Earliest triple backquote; returns the text after it. -/
def findClose3BT : List Char → Option (List Char)
  | [] => none
  | c :: cs =>
      if c = btick && [btick, btick].isPrefixOf cs then some (cs.drop 2)
      else findClose3BT cs

/-- `re.sub(r"```[\s\S]*?```", "", s)`: remove each fenced block — an opening
triple backquote lazily through the next triple backquote; an opening fence
with no closing one stays in place.  Fuel as in `subLabelF`. -/
def subFencesF : Nat → List Char → List Char
  | 0, s => s
  | _ + 1, [] => []
  | f + 1, c :: cs =>
      if c = btick && [btick, btick].isPrefixOf cs then
        match findClose3BT (cs.drop 2) with
        | some rest => subFencesF f rest
        | none => c :: subFencesF f cs
      else c :: subFencesF f cs

/-- Replacement for a maximal run of `n` newlines under `re.sub(r"\n{3,}", "\n\n", .)`. -/
def collapseRun (n : Nat) : List Char :=
  if 3 ≤ n then [ '\n', '\n' ] else List.replicate n '\n'

/-- `re.sub(r"\n{3,}", "\n\n", s)` with `n` pending newlines already read. -/
def collapseAux : Nat → List Char → List Char
  | n, [] => collapseRun n
  | n, c :: cs =>
      if c = '\n' then collapseAux (n + 1) cs
      else collapseRun n ++ c :: collapseAux 0 cs

/-- `IntelligentTicketGenerator._sanitize_ticket`
(intelligent_ticket_generator.py lines 233-252): remove the nine disallowed
bold-label lines (in their listed order), remove `## Example Code Snippet`
sections, strip fenced code blocks, collapse runs of three or more newlines to
one blank line, and strip both ends. -/
def _sanitize_ticket (md : String) : String :=
  let s1 := disallowedLits.foldl (fun acc lit => subLabelF lit acc.length acc) md.data
  let s2 := subExampleF s1.length s1
  let s3 := subFencesF s2.length s2
  let s4 := collapseAux 0 s3
  (pyStrip s4).asString

/-- Values stored in the ticket dict: strings and lists of strings. -/
inductive TicketVal where
  | str : String → TicketVal
  | strList : List String → TicketVal
deriving DecidableEq

/-- The title loop of `_parse_generated_ticket` (lines 185-189): first line
starting with `# `, with the marker removed and the rest stripped. -/
def extractTitle : List String → String
  | [] => ("Generated Ticket")
  | l :: ls => if l.startsWith ("# ") then pyStripS (l.drop 2) else extractTitle ls

/-- The acceptance-criteria loop of `_parse_generated_ticket` (lines 195-207). -/
def extractCriteria : Bool → List String → List String
  | _, [] => []
  | inSec, l :: ls =>
      if pyStripS l = ("## Acceptance Criteria") then extractCriteria true ls
      else if l.startsWith ("## ") && inSec then []
      else if inSec && (pyStripS l).startsWith ("- [ ]") then
        let c := pyStripS ((pyStripS l).drop 5)
        if c = ("") then extractCriteria inSec ls else c :: extractCriteria inSec ls
      else extractCriteria inSec ls

/-- `re.findall(r"`([^`]+)`", line)` restricted to its first match: the first
backquote-delimited nonempty token that has a closing backquote. -/
def firstBacktickToken : List Char → Option (List Char)
  | [] => none
  | c :: cs =>
      if c = btick then
        let tok := cs.takeWhile (fun a => a != btick)
        if !tok.isEmpty && tok.length < cs.length then some tok
        else firstBacktickToken cs
      else firstBacktickToken cs

/-- The files-to-modify loop of `_parse_generated_ticket` (lines 210-223). -/
def extractFiles : Bool → List String → List String
  | _, [] => []
  | inSec, l :: ls =>
      if pyStripS l = ("## Files to Modify") then extractFiles true ls
      else if l.startsWith ("## ") && inSec then []
      else if inSec then
        match firstBacktickToken l.data with
        | some tok => tok.asString :: extractFiles inSec ls
        | none => extractFiles inSec ls
      else extractFiles inSec ls

/-- `IntelligentTicketGenerator._parse_generated_ticket` (lines 180-231).  The
returned Python dict literal is modelled as an association list whose pairs
appear in the order the source writes its keys. -/
def _parse_generated_ticket (markdown_content : String) : List (String × TicketVal) :=
  let lines := markdown_content.splitOn ("\n")
  [(("title"), .str (extractTitle lines)),
   (("description"), .str markdown_content),
   (("acceptance_criteria"), .strList (extractCriteria false lines)),
   (("files_to_modify"), .strList (extractFiles false lines)),
   (("raw_markdown"), .str markdown_content)]

/-- `IntelligentTicketGenerator._generate_ticket_with_llm` (lines 138-178).
`llm` is the outcome of the OpenAI call: `Except.ok content` for a successful
completion (with `content` the possibly-absent message text, so
`content.getD ""` is `content or ""`), `Except.error e` for a raised exception
whose `str` is `e`. -/
def _generate_ticket_with_llm (llm : Except String (Option String)) :
    List (String × TicketVal) :=
  match llm with
  | .ok content =>
      let markdown_content := _sanitize_ticket (pyStripS (content.getD ("")))
      _parse_generated_ticket markdown_content
  | .error e =>
      [(("title"), .str ("Error generating ticket")),
       (("description"), .str (("Failed to generate ticket: ") ++ e)),
       (("acceptance_criteria"), .strList []),
       (("files_to_modify"), .strList [])]

/-- Claim C6 (counterexample): a request that contains both a bug_fix-bucket
keyword ("fix") and a refactoring-bucket keyword ("refactor") as lowercase
substrings but is NOT classified as bug_fix, because it also contains the
feature_implementation-bucket keyword "add", whose bucket is scanned first. -/
theorem classify_intent_counterexample :
    occursStr ("fix") (pyLower ("add fix refactor")) = true ∧
    occursStr ("refactor") (pyLower ("add fix refactor")) = true ∧
    _classify_intent ("add fix refactor") ≠ ("bug_fix") := by
  refine ⟨by decide, by decide, by decide⟩

/-- Claim C6 (amended): for every request that contains a bug_fix-bucket
keyword ("fix", "bug", "error", "issue") as a lowercase substring and contains
no feature_implementation-bucket keyword ("add", "create", "implement",
"build"), intent classification returns bug_fix — in particular the
refactoring bucket, scanned later, cannot preempt it. -/
theorem classify_intent_bug_fix_priority (r : String)
    (hfeat : ∀ w ∈ [("add"), ("create"), ("implement"), ("build")],
        occursStr w (pyLower r) = false)
    (hbug : ∃ w ∈ [("fix"), ("bug"), ("error"), ("issue")],
        occursStr w (pyLower r) = true) :
    _classify_intent r = ("bug_fix") := by
  have h1 : [("add"), ("create"), ("implement"), ("build")].any
      (fun w => occursStr w (pyLower r)) = false := by
    simp only [List.any_eq_false]
    intro w hw
    simp [hfeat w hw]
  have h2 : [("fix"), ("bug"), ("error"), ("issue")].any
      (fun w => occursStr w (pyLower r)) = true := by
    simp only [List.any_eq_true]
    exact hbug
  simp [_classify_intent, h1, h2]

/-- Witness for `classify_intent_bug_fix_priority` at a concrete request. -/
theorem classify_intent_bug_fix_priority_witness :
    _classify_intent ("please fix and refactor this") = ("bug_fix") :=
  classify_intent_bug_fix_priority ("please fix and refactor this")
    (by decide) (by decide)

/-- Claim C9: `_cosine_similarity` returns 0 whenever either argument has
L2 norm 0, so the division is guarded and never a division by zero; otherwise
it returns exactly the dot product divided by the (nonzero) product of the two
norms. -/
theorem cosine_similarity_guarded (v w : List ℝ) :
    ((normL2 v = 0 ∨ normL2 w = 0) → _cosine_similarity v w = 0) ∧
    (normL2 v ≠ 0 → normL2 w ≠ 0 →
        _cosine_similarity v w * (normL2 v * normL2 w) = dotL v w) := by
  constructor
  · intro h
    simp [_cosine_similarity, h]
  · intro h1 h2
    rw [_cosine_similarity, if_neg (by tauto)]
    exact div_mul_cancel₀ _ (mul_ne_zero h1 h2)

/-- Witness for `cosine_similarity_guarded`: a zero vector yields similarity 0. -/
theorem cosine_similarity_guarded_witness :
    _cosine_similarity [(0 : ℝ)] [(1 : ℝ)] = 0 :=
  (cosine_similarity_guarded [(0 : ℝ)] [(1 : ℝ)]).1
    (Or.inl (by simp [normL2, sumSq]))

set_option maxHeartbeats 1600000 in
/-- Claim C8: the architecture-pattern detector reports "MVC" exactly when
each of the substrings "model", "view" and "controller" occurs
(case-insensitively) in at least one chunk filename; with only two of the
three present it is never reported. -/
theorem detect_patterns_mvc_iff (l : List (CodeChunk ℚ)) :
    ("MVC") ∈ _detect_architectural_patterns l ↔
      ((∃ c ∈ l, occursStr ("model") (pyLower c.filename) = true) ∧
       (∃ c ∈ l, occursStr ("view") (pyLower c.filename) = true) ∧
       (∃ c ∈ l, occursStr ("controller") (pyLower c.filename) = true)) := by
  unfold _detect_architectural_patterns
  simp only [List.mem_append]
  split_ifs with h1 h2 h3 h4 h5 <;>
    simp_all [List.any_map, List.any_eq_true, Function.comp, Bool.and_eq_true] <;>
    exact h1

/-- Claim C3 (counterexample): on an exception from the generation call the
returned dict has no "raw_markdown" key, so the full five-field Ticket shape is
not produced. -/
theorem generate_ticket_error_counterexample :
    ¬ (("raw_markdown") ∈ (_generate_ticket_with_llm (.error ("boom"))).map Prod.fst) := by
  decide

/-- Claim C3 (amended): on any exception from the generation call,
`_generate_ticket_with_llm` returns the fixed error dict with exactly the four
keys title, description, acceptance_criteria and files_to_modify — title
"Error generating ticket", a description containing the failure message, and
empty lists — and no raw_markdown key. -/
theorem generate_ticket_error_shape (e : String) :
    (_generate_ticket_with_llm (.error e)).lookup ("title") =
        some (.str ("Error generating ticket")) ∧
    (∃ d, (_generate_ticket_with_llm (.error e)).lookup ("description") = some (.str d) ∧
        e.data <:+: d.data) ∧
    (_generate_ticket_with_llm (.error e)).lookup ("acceptance_criteria") =
        some (.strList []) ∧
    (_generate_ticket_with_llm (.error e)).lookup ("files_to_modify") =
        some (.strList []) ∧
    (_generate_ticket_with_llm (.error e)).lookup ("raw_markdown") = none ∧
    (_generate_ticket_with_llm (.error e)).map Prod.fst =
        [("title"), ("description"), ("acceptance_criteria"), ("files_to_modify")] := by
  refine ⟨rfl, ⟨("Failed to generate ticket: ") ++ e, rfl, ?_⟩, rfl, rfl, rfl, rfl⟩
  rw [String.data_append]
  exact (List.suffix_append _ _).isInfix

/-- The title loop of `_parse_generated_ticket` returns the first line starting
with `# ` (with the marker dropped and the remainder stripped), or the default. -/
theorem extractTitle_eq_find (ls : List String) :
    extractTitle ls = (match ls.find? (fun l => l.startsWith ("# ")) with
      | some l => pyStripS (l.drop 2)
      | none => ("Generated Ticket")) := by
  induction ls with
  | nil => rfl
  | cons l ls ih =>
      by_cases h : l.startsWith ("# ") = true
      · simp [extractTitle, h, List.find?_cons_of_pos]
      · simp only [Bool.not_eq_true] at h
        simp [extractTitle, h, List.find?_cons_of_neg, ih]

/-- Claim C4: ticket parsing is total — for every input string (including the
empty one) it returns the full five-key dict, with title the first line
beginning with `# ` (trimmed) or the default "Generated Ticket", description
and raw_markdown equal to the whole input, and (possibly empty) lists for
acceptance criteria and files. -/
theorem parse_generated_ticket_total (s : String) :
    (_parse_generated_ticket s).lookup ("title") =
        some (.str (match (s.splitOn ("\n")).find? (fun l => l.startsWith ("# ")) with
                    | some l => pyStripS (l.drop 2)
                    | none => ("Generated Ticket"))) ∧
    (_parse_generated_ticket s).lookup ("description") = some (.str s) ∧
    (∃ cl, (_parse_generated_ticket s).lookup ("acceptance_criteria") =
        some (.strList cl)) ∧
    (∃ fl, (_parse_generated_ticket s).lookup ("files_to_modify") =
        some (.strList fl)) ∧
    (_parse_generated_ticket s).lookup ("raw_markdown") = some (.str s) := by
  have h := extractTitle_eq_find (s.splitOn ("\n"))
  refine ⟨?_, rfl, ⟨_, rfl⟩, ⟨_, rfl⟩, rfl⟩
  show some (TicketVal.str (extractTitle (s.splitOn ("\n")))) =
      some (TicketVal.str _)
  rw [h]

/-- Number of positions at which `pat` occurs inside `s` (overlapping
occurrences counted); used to state "contains the term 3 times". -/
def countOcc (pat s : List Char) : ℕ :=
  ((List.range (s.length + 1)).filter (fun i => pat.isPrefixOf (s.drop i))).length

/-- Every token produced by the lexical tokenizer is nonempty. -/
theorem tokAux_ne_nil :
    ∀ (l acc t : List Char), t ∈ tokAux l acc → t ≠ [] := by
  intro l
  induction l with
  | nil =>
      intro acc t ht
      unfold tokAux at ht
      by_cases h : acc.isEmpty = true
      · simp [h] at ht
      · simp [h] at ht
        subst ht
        simp only [ne_eq, List.reverse_eq_nil_iff]
        simpa [List.isEmpty_iff] using h
  | cons c cs ih =>
      intro acc t ht
      unfold tokAux at ht
      by_cases h1 : isTermChar c = true
      · simp [h1] at ht
        exact ih (c :: acc) t ht
      · by_cases h2 : acc.isEmpty = true
        · simp [h1, h2] at ht
          exact ih [] t ht
        · simp [h1, h2] at ht
          rcases ht with h | h
          · subst h
            simp only [ne_eq, List.reverse_eq_nil_iff]
            simpa [List.isEmpty_iff] using h2
          · exact ih [] t h

/-- Claim C5 (counterexample): the query "alpha beta" tokenizes to 2 terms; a
candidate whose text contains the literal query term "alpha" 3 times does NOT
get overlap 1.0 — only 1 of the 2 distinct terms matches, so the score is
0.7·(1/2) + 0.3·length_score, not 0.7·1.0 + 0.3·length_score. -/
theorem lexical_score_counterexample :
    (lexTerms ("alpha beta")).length = 2 ∧
    ("alpha").data ∈ lexTerms ("alpha beta") ∧
    countOcc (("alpha").data)
      (lexText ⟨(""), ("alpha alpha alpha"), (""), none, [], ("")⟩) = 3 ∧
    lexScore ("alpha beta") ⟨(""), ("alpha alpha alpha"), (""), none, [], ("")⟩ ≠
      (7/10) * 1 + (3/10) *
        lengthScore ⟨(""), ("alpha alpha alpha"), (""), none, [], ("")⟩ := by
  refine ⟨by decide, by decide, by decide, ?_⟩
  have hm : lexMatches ("alpha beta")
      ⟨(""), ("alpha alpha alpha"), (""), none, [], ("")⟩ = 1 := by decide
  have hn : (lexTerms ("alpha beta")).length = 2 := by decide
  have h18 : (lexText ⟨(""), ("alpha alpha alpha"), (""), none, [], ("")⟩).length = 18 := by
    decide
  rw [lexScore, hm, hn, lengthScore, h18]
  norm_num [min_def]

/-- Claim C5 (amended): for a query tokenizing to 2 distinct terms and a
candidate whose text contains every query term (however many times each), the
overlap component is 1.0 and the score is exactly
0.7·1.0 + 0.3·length_score with length_score = min(len(text)/10000, 1.0). -/
theorem lexical_score_full_overlap (q : String) (c : ChunkRec ℚ)
    (hn : (lexTerms q).length = 2)
    (hall : ∀ t ∈ lexTerms q, containsSub t (lexText c) = true) :
    lexScore q c = (7/10) * 1 + (3/10) * lengthScore c := by
  have hm : lexMatches q c = 2 := by
    rw [lexMatches, ← hn]
    rw [List.countP_eq_length]
    intro t ht
    have hne : t ≠ [] := by
      have : t ∈ lexTokens (lowerL q.data) := List.mem_dedup.mp ht
      exact tokAux_ne_nil _ _ t this
    simp [hall t ht, List.isEmpty_iff, hne]
  rw [lexScore, hm, hn]
  norm_num

/-- Witness for `lexical_score_full_overlap` at a concrete query and candidate. -/
theorem lexical_score_full_overlap_witness :
    lexScore ("alpha beta")
        ⟨(""), ("alpha beta alpha beta alpha beta"), (""), none, [], ("")⟩ =
      (7/10) * 1 + (3/10) *
        lengthScore ⟨(""), ("alpha beta alpha beta alpha beta"), (""), none, [], ("")⟩ :=
  lexical_score_full_overlap ("alpha beta") _ (by decide) (by decide)

theorem mem_insDesc {K : Type} [LinearOrder K] {α : Type} (p a : K × α) :
    ∀ l : List (K × α), a ∈ insDesc p l ↔ a = p ∨ a ∈ l := by
  intro l
  induction l with
  | nil => simp [insDesc]
  | cons q qs ih =>
      by_cases h : q.1 < p.1
      · simp [insDesc, h]
      · simp only [insDesc, h, if_false, List.mem_cons, ih]
        tauto

theorem mem_sortDescBy {K : Type} [LinearOrder K] {α : Type} (a : K × α) :
    ∀ l : List (K × α), a ∈ sortDescBy l ↔ a ∈ l := by
  intro l
  induction l with
  | nil => simp [sortDescBy]
  | cons q qs ih =>
      simp only [sortDescBy, List.foldr_cons, List.mem_cons]
      rw [show List.foldr insDesc [] qs = sortDescBy qs from rfl] at *
      rw [mem_insDesc, ih]

/-- Everything `searchTail` returns has a score above the 0.3 threshold and is
the score of one of the incoming `(score, chunk)` pairs; the result length is
bounded by `top_k`. -/
theorem searchTail_spec {K : Type} [LinearOrderedField K]
    (sims : List (K × ChunkRec K)) (top_k : ℕ) :
    (searchTail sims top_k).length ≤ top_k ∧
    ∀ c ∈ searchTail sims top_k,
      (3 : K)/10 < c.score ∧ ∃ p ∈ sims, c.score = p.1 := by
  constructor
  · calc (searchTail sims top_k).length
        = (((sortDescBy sims).take top_k).filter (fun p => (3 : K)/10 < p.1)).length := by
          simp [searchTail]
      _ ≤ ((sortDescBy sims).take top_k).length := List.length_filter_le _ _
      _ ≤ top_k := List.length_take_le _ _
  · intro c hc
    simp only [searchTail, List.mem_map] at hc
    obtain ⟨p, hp, rfl⟩ := hc
    have h1 := List.of_mem_filter hp
    have h2 : p ∈ (sortDescBy sims).take top_k := List.mem_of_mem_filter hp
    have h3 : p ∈ sortDescBy sims := List.take_subset _ _ h2
    have h4 : p ∈ sims := (mem_sortDescBy p sims).mp h3
    refine ⟨by simpa using h1, p, h4, rfl⟩

theorem sumSq_nonneg (v : List ℝ) : 0 ≤ sumSq v := by
  apply List.sum_nonneg
  intro x hx
  obtain ⟨a, _, rfl⟩ := List.mem_map.mp hx
  positivity

/-- Cauchy-Schwarz for (possibly truncating) list dot products. -/
theorem dotL_sq_le (v : List ℝ) : ∀ w : List ℝ, dotL v w ^ 2 ≤ sumSq v * sumSq w := by
  induction v with
  | nil =>
      intro w
      simp [dotL, sumSq]
  | cons a v ih =>
      intro w
      cases w with
      | nil => simp [dotL, sumSq]
      | cons b w =>
          have h := ih w
          have hv : 0 ≤ sumSq v := sumSq_nonneg v
          have hw : 0 ≤ sumSq w := sumSq_nonneg w
          have hpos : 0 ≤ a ^ 2 * sumSq w + b ^ 2 * sumSq v := by positivity
          have key : (2 * a * b * dotL v w) ^ 2 ≤
              (a ^ 2 * sumSq w + b ^ 2 * sumSq v) ^ 2 := by
            nlinarith [sq_nonneg (a ^ 2 * sumSq w - b ^ 2 * sumSq v),
              mul_nonneg (mul_nonneg (sq_nonneg a) (sq_nonneg b)) (sub_nonneg.mpr h)]
          have key2 : 0 ≤
              (a ^ 2 * sumSq w + b ^ 2 * sumSq v - 2 * a * b * dotL v w) *
                (a ^ 2 * sumSq w + b ^ 2 * sumSq v + 2 * a * b * dotL v w) := by
            nlinarith [key]
          have h3 : 2 * a * b * dotL v w ≤ a ^ 2 * sumSq w + b ^ 2 * sumSq v := by
            nlinarith [key2, hpos]
          simp only [dotL, sumSq, List.zipWith_cons_cons, List.map_cons,
            List.sum_cons] at *
          nlinarith [h, h3]

/-- The cosine similarity of the source never exceeds 1. -/
theorem cosine_similarity_le_one (v w : List ℝ) : _cosine_similarity v w ≤ 1 := by
  rw [_cosine_similarity]
  by_cases h : normL2 v = 0 ∨ normL2 w = 0
  · simp [h]
  · rw [if_neg h]
    push_neg at h
    obtain ⟨h1, h2⟩ := h
    have hv : 0 ≤ normL2 v := Real.sqrt_nonneg _
    have hw : 0 ≤ normL2 w := Real.sqrt_nonneg _
    have hv' : 0 < normL2 v := lt_of_le_of_ne hv (Ne.symm h1)
    have hw' : 0 < normL2 w := lt_of_le_of_ne hw (Ne.symm h2)
    rw [div_le_one (mul_pos hv' hw')]
    calc dotL v w ≤ |dotL v w| := le_abs_self _
      _ = Real.sqrt (dotL v w ^ 2) := (Real.sqrt_sq_eq_abs _).symm
      _ ≤ Real.sqrt (sumSq v * sumSq w) := Real.sqrt_le_sqrt (dotL_sq_le v w)
      _ = normL2 v * normL2 w := by
          rw [normL2, normL2, Real.sqrt_mul (sumSq_nonneg v)]

/-- The lexical score is never above 1: the overlap ratio and the length
penalty are each at most 1 and the weights 0.7/0.3 sum to 1. -/
theorem lexScore_le_one (q : String) (c : ChunkRec ℚ) : lexScore q c ≤ 1 := by
  have hls1 : lengthScore c ≤ 1 := min_le_right _ _
  have hls0 : 0 ≤ lengthScore c := by
    rw [lengthScore]
    apply le_min
    · positivity
    · norm_num
  have hcount : lexMatches q c ≤ (lexTerms q).length := List.countP_le_length _
  rw [lexScore]
  rcases Nat.eq_zero_or_pos (lexTerms q).length with h0 | hpos
  · have hm0 : lexMatches q c = 0 := Nat.le_zero.mp (h0 ▸ hcount)
    rw [hm0, h0]
    simp
    linarith
  · have hk0 : (lexTerms q).length ≠ 0 := Nat.pos_iff_ne_zero.mp hpos
    rw [if_neg hk0]
    have hd : (0:ℚ) < ((lexTerms q).length : ℚ) := by exact_mod_cast hpos
    have hov : (lexMatches q c : ℚ) / ((lexTerms q).length : ℚ) ≤ 1 := by
      rw [div_le_one hd]
      exact_mod_cast hcount
    have hov0 : 0 ≤ (lexMatches q c : ℚ) / ((lexTerms q).length : ℚ) := by positivity
    nlinarith [hov, hov0, hls1, hls0]

/-- On the ok path, every similarity computed by the semantic branch is a
cosine similarity against the query embedding. -/
theorem semSims_ok_scores (qe : List ℝ) :
    ∀ (cands : List (ChunkRec ℝ)) (sims : List (ℝ × ChunkRec ℝ)),
      semSims qe cands = .ok sims →
      ∀ p ∈ sims, ∃ emb, p.1 = _cosine_similarity qe emb := by
  intro cands
  induction cands with
  | nil =>
      intro sims h p hp
      simp only [semSims, Except.ok.injEq] at h
      subst h
      simp at hp
  | cons c cs ih =>
      intro sims h p hp
      rw [show semSims qe (c :: cs) =
          (match c.embedding with
           | none => semSims qe cs
           | some emb =>
               if emb.length = qe.length then
                 match semSims qe cs with
                 | .ok rest => .ok ((_cosine_similarity qe emb, c) :: rest)
                 | .error e => .error e
               else .error ("shapes not aligned")) from rfl] at h
      cases hemb : c.embedding with
      | none =>
          simp only [hemb] at h
          exact ih sims h p hp
      | some emb =>
          simp only [hemb] at h
          by_cases hlen : emb.length = qe.length
          · rw [if_pos hlen] at h
            cases hrec : semSims qe cs with
            | ok rest =>
                rw [hrec] at h
                simp only [Except.ok.injEq] at h
                subst h
                rcases List.mem_cons.mp hp with h | h
                · exact ⟨emb, by rw [h]⟩
                · exact ih rest hrec p h
            | error e =>
                rw [hrec] at h
                exact absurd h (by simp)
          · rw [if_neg hlen] at h
            exact absurd h (by simp)

/-- Claim C1: in both modes, `search_relevant_code` only returns CodeChunks
with score strictly above 0.3 and at most 1.0, and never more than `top_k` of
them (15 by default). -/
theorem search_relevant_code_bounds :
    (∀ (q : String) (cands : List (ChunkRec ℚ)) (top_k : ℕ),
        (search_relevant_code_lex q cands top_k).length ≤ top_k ∧
        ∀ c ∈ search_relevant_code_lex q cands top_k,
          (3 : ℚ)/10 < c.score ∧ c.score ≤ 1) ∧
    (∀ (encode : String → List ℝ) (q : String) (cands : List (ChunkRec ℝ)) (top_k : ℕ),
        (search_relevant_code_sem encode q cands top_k).length ≤ top_k ∧
        ∀ c ∈ search_relevant_code_sem encode q cands top_k,
          (3 : ℝ)/10 < c.score ∧ c.score ≤ 1) := by
  constructor
  · intro q cands top_k
    obtain ⟨hlen, hsc⟩ := searchTail_spec (lexSims q cands) top_k
    refine ⟨hlen, fun c hc => ?_⟩
    obtain ⟨hgt, p, hp, hpe⟩ := hsc c hc
    refine ⟨hgt, ?_⟩
    obtain ⟨d, _, rfl⟩ := List.mem_map.mp hp
    rw [hpe]
    exact lexScore_le_one q d
  · intro encode q cands top_k
    rw [show search_relevant_code_sem encode q cands top_k =
        (match searchSemBody encode q cands top_k with
         | .ok r => r
         | .error _ => []) from rfl]
    rw [show searchSemBody encode q cands top_k =
        (match semSims (encode q) cands with
         | .ok sims => .ok (searchTail sims top_k)
         | .error e => .error e) from rfl]
    cases hsims : semSims (encode q) cands with
    | error e => simp
    | ok sims =>
        simp only []
        obtain ⟨hlen, hsc⟩ := searchTail_spec sims top_k
        refine ⟨hlen, fun c hc => ?_⟩
        obtain ⟨hgt, p, hp, hpe⟩ := hsc c hc
        refine ⟨hgt, ?_⟩
        obtain ⟨emb, hemb⟩ := semSims_ok_scores (encode q) cands sims hsims p hp
        rw [hpe, hemb]
        exact cosine_similarity_le_one _ _

/-- Witness for `search_relevant_code_bounds` at a concrete lexical query and
candidate list: the one returned chunk scores in (0.3, 1]. -/
theorem search_relevant_code_bounds_witness :
    (search_relevant_code_lex ("alpha")
        [⟨("f"), ("alpha"), (""), none, [], ("")⟩] 15).length ≤ 15 ∧
    (3 : ℚ)/10 <
      (⟨("f"), ("alpha"), (""), (70021/100000 : ℚ), [], ("")⟩ : CodeChunk ℚ).score ∧
    (⟨("f"), ("alpha"), (""), (70021/100000 : ℚ), [], ("")⟩ : CodeChunk ℚ).score ≤ 1 := by
  have hm : lexMatches ("alpha") ⟨("f"), ("alpha"), (""), none, [], ("")⟩ = 1 := by decide
  have hn : (lexTerms ("alpha")).length = 1 := by decide
  have h7 : (lexText ⟨("f"), ("alpha"), (""), none, [], ("")⟩).length = 7 := by decide
  have hls : lengthScore ⟨("f"), ("alpha"), (""), none, [], ("")⟩ = 7/10000 := by
    rw [lengthScore, h7]
    norm_num [min_def]
  have hscore : lexScore ("alpha") ⟨("f"), ("alpha"), (""), none, [], ("")⟩ =
      70021/100000 := by
    rw [lexScore, hm, hn, hls]
    norm_num
  have hcond : (3 : ℚ)/10 < 70021/100000 := by norm_num
  have hres : search_relevant_code_lex ("alpha")
      [⟨("f"), ("alpha"), (""), none, [], ("")⟩] 15 =
      [⟨("f"), ("alpha"), (""), (70021/100000 : ℚ), [], ("")⟩] := by
    rw [search_relevant_code_lex, searchTail, lexSims, List.map_cons, List.map_nil,
      hscore]
    simp [sortDescBy, insDesc, toCodeChunk, hcond]
  refine ⟨(search_relevant_code_bounds.1 ("alpha")
      [⟨("f"), ("alpha"), (""), none, [], ("")⟩] 15).1, ?_, ?_⟩
  · exact ((search_relevant_code_bounds.1 ("alpha")
        [⟨("f"), ("alpha"), (""), none, [], ("")⟩] 15).2 _ (by rw [hres]; simp)).1
  · exact ((search_relevant_code_bounds.1 ("alpha")
        [⟨("f"), ("alpha"), (""), none, [], ("")⟩] 15).2 _ (by rw [hres]; simp)).2

/-- Claim C10: the body of `search_relevant_code` runs inside a `try/except`
that converts any exception into the empty-list result, and a successful body
is returned unchanged — no exception propagates to the caller. -/
theorem search_relevant_code_catches (encode : String → List ℝ) (q : String)
    (cands : List (ChunkRec ℝ)) (top_k : ℕ) :
    (∀ e, searchSemBody encode q cands top_k = .error e →
        search_relevant_code_sem encode q cands top_k = []) ∧
    (∀ r, searchSemBody encode q cands top_k = .ok r →
        search_relevant_code_sem encode q cands top_k = r) := by
  constructor
  · intro e h
    rw [search_relevant_code_sem, h]
  · intro r h
    rw [search_relevant_code_sem, h]

/-- Witness for `search_relevant_code_catches`: a candidate whose embedding
shape does not match the query embedding makes the body raise, and the
function returns the empty list. -/
theorem search_relevant_code_catches_witness :
    search_relevant_code_sem (fun _ => [(1 : ℝ), 0]) ("q")
        [⟨("f"), (""), (""), some [(1 : ℝ)], [], ("")⟩] 15 = [] :=
  (search_relevant_code_catches (fun _ => [(1 : ℝ), 0]) ("q")
      [⟨("f"), (""), (""), some [(1 : ℝ)], [], ("")⟩] 15).1
    ("shapes not aligned") rfl

theorem maxByScore_mem :
    ∀ (cs : List (CodeChunk ℚ)) (c0 : CodeChunk ℚ), maxByScore c0 cs ∈ c0 :: cs := by
  intro cs
  induction cs with
  | nil => intro c0; simp [maxByScore]
  | cons c cs ih =>
      intro c0
      rw [maxByScore, List.foldl_cons]
      rw [show List.foldl (fun best c => if best.score < c.score then c else best)
            (if c0.score < c.score then c else c0) cs =
          maxByScore (if c0.score < c.score then c else c0) cs from rfl]
      have h := ih (if c0.score < c.score then c else c0)
      rcases List.mem_cons.mp h with h | h
      · rw [h]
        by_cases hlt : c0.score < c.score
        · simp [hlt]
        · simp [hlt]
      · simp [h]

theorem maxByScore_ge :
    ∀ (cs : List (CodeChunk ℚ)) (c0 m : CodeChunk ℚ), m ∈ c0 :: cs →
      m.score ≤ (maxByScore c0 cs).score := by
  intro cs
  induction cs with
  | nil =>
      intro c0 m hm
      simp at hm
      simp [maxByScore, hm]
  | cons c cs ih =>
      intro c0 m hm
      rw [maxByScore, List.foldl_cons]
      rw [show List.foldl (fun best c => if best.score < c.score then c else best)
            (if c0.score < c.score then c else c0) cs =
          maxByScore (if c0.score < c.score then c else c0) cs from rfl]
      have hstep : ∀ x, x ∈ (if c0.score < c.score then c else c0) :: cs →
          x.score ≤ (maxByScore (if c0.score < c.score then c else c0) cs).score :=
        ih _
      rcases List.mem_cons.mp hm with h | hm2
      · subst h
        by_cases hlt : m.score < c.score
        · calc m.score ≤ c.score := le_of_lt hlt
            _ ≤ _ := by
              apply hstep
              simp [hlt]
        · apply hstep
          simp [hlt]
      · rcases List.mem_cons.mp hm2 with h | h
        · subst h
          by_cases hlt : c0.score < m.score
          · apply hstep
            simp [hlt]
          · calc m.score ≤ c0.score := le_of_not_lt hlt
              _ ≤ _ := by
                apply hstep
                simp [hlt]
        · apply hstep
          simp [h]

theorem addToGroups_member_src :
    ∀ (gs : List (String × CodeChunk ℚ × List (CodeChunk ℚ))) (c : CodeChunk ℚ)
      (g : String × CodeChunk ℚ × List (CodeChunk ℚ)) (m : CodeChunk ℚ),
      g ∈ addToGroups gs c → m ∈ g.2.1 :: g.2.2 →
      (∃ g0 ∈ gs, m ∈ g0.2.1 :: g0.2.2) ∨ m = c := by
  intro gs
  induction gs with
  | nil =>
      intro c g m hg hm
      simp [addToGroups] at hg
      subst hg
      simp at hm
      exact Or.inr hm
  | cons g0 gs ih =>
      intro c g m hg hm
      rw [addToGroups] at hg
      by_cases hk : simKey c = g0.1
      · rw [if_pos hk] at hg
        rcases List.mem_cons.mp hg with h | h
        · subst h
          simp only [List.mem_cons] at hm
          rcases hm with h | hm
          · exact Or.inl ⟨g0, by simp, by simp [h]⟩
          · rcases List.mem_append.mp hm with h | h
            · exact Or.inl ⟨g0, by simp, by simp [h]⟩
            · simp at h
              exact Or.inr h
        · exact Or.inl ⟨g, List.mem_cons_of_mem _ h, hm⟩
      · rw [if_neg hk] at hg
        rcases List.mem_cons.mp hg with h | h
        · subst h
          exact Or.inl ⟨g, by simp, hm⟩
        · rcases ih c g m h hm with ⟨g1, hg1, hmg1⟩ | h
          · exact Or.inl ⟨g1, List.mem_cons_of_mem _ hg1, hmg1⟩
          · exact Or.inr h

theorem addToGroups_keys_consistent :
    ∀ (gs : List (String × CodeChunk ℚ × List (CodeChunk ℚ))) (c : CodeChunk ℚ),
      (∀ g ∈ gs, ∀ m ∈ g.2.1 :: g.2.2, simKey m = g.1) →
      (∀ g ∈ addToGroups gs c, ∀ m ∈ g.2.1 :: g.2.2, simKey m = g.1) := by
  intro gs
  induction gs with
  | nil =>
      intro c _ g hg m hm
      simp [addToGroups] at hg
      subst hg
      simp at hm
      simp [hm]
  | cons g0 gs ih =>
      intro c hcons g hg m hm
      rw [addToGroups] at hg
      by_cases hk : simKey c = g0.1
      · rw [if_pos hk] at hg
        rcases List.mem_cons.mp hg with h | h
        · subst h
          simp only [List.mem_cons] at hm
          rcases hm with h | hm
          · exact hcons g0 (by simp) m (by simp [h])
          · rcases List.mem_append.mp hm with h | h
            · exact hcons g0 (by simp) m (by simp [h])
            · simp at h
              subst h
              exact hk
        · exact hcons g (List.mem_cons_of_mem _ h) m hm
      · rw [if_neg hk] at hg
        rcases List.mem_cons.mp hg with h | h
        · subst h
          exact hcons g (by simp) m hm
        · exact ih c (fun g' hg' => hcons g' (List.mem_cons_of_mem _ hg')) g h m hm

theorem addToGroups_covers :
    ∀ (gs : List (String × CodeChunk ℚ × List (CodeChunk ℚ))) (c : CodeChunk ℚ),
      ∃ g ∈ addToGroups gs c, g.1 = simKey c ∧ c ∈ g.2.1 :: g.2.2 := by
  intro gs
  induction gs with
  | nil =>
      intro c
      exact ⟨(simKey c, c, []), by simp [addToGroups], rfl, by simp⟩
  | cons g0 gs ih =>
      intro c
      rw [addToGroups]
      by_cases hk : simKey c = g0.1
      · rw [if_pos hk]
        refine ⟨(g0.1, g0.2.1, g0.2.2 ++ [c]), by simp, hk.symm, by simp⟩
      · rw [if_neg hk]
        obtain ⟨g, hg, hkey, hmem⟩ := ih c
        exact ⟨g, List.mem_cons_of_mem _ hg, hkey, hmem⟩

theorem addToGroups_extends :
    ∀ (gs : List (String × CodeChunk ℚ × List (CodeChunk ℚ))) (c : CodeChunk ℚ)
      (g : String × CodeChunk ℚ × List (CodeChunk ℚ)), g ∈ gs →
      ∃ g' ∈ addToGroups gs c, g'.1 = g.1 ∧
        ∀ m ∈ g.2.1 :: g.2.2, m ∈ g'.2.1 :: g'.2.2 := by
  intro gs
  induction gs with
  | nil => intro c g hg; simp at hg
  | cons g0 gs ih =>
      intro c g hg
      rw [addToGroups]
      by_cases hk : simKey c = g0.1
      · rw [if_pos hk]
        rcases List.mem_cons.mp hg with h | h
        · subst h
          refine ⟨(g.1, g.2.1, g.2.2 ++ [c]), by simp, rfl, ?_⟩
          intro m hm
          simp only [List.mem_cons] at hm ⊢
          rcases hm with h | h
          · exact Or.inl h
          · exact Or.inr (List.mem_append.mpr (Or.inl h))
        · exact ⟨g, List.mem_cons_of_mem _ h, rfl, fun m hm => hm⟩
      · rw [if_neg hk]
        rcases List.mem_cons.mp hg with h | h
        · subst h
          exact ⟨g, by simp, rfl, fun m hm => hm⟩
        · obtain ⟨g', hg', hkey, hsub⟩ := ih c g h
          exact ⟨g', List.mem_cons_of_mem _ hg', hkey, hsub⟩

theorem addToGroups_keys :
    ∀ (gs : List (String × CodeChunk ℚ × List (CodeChunk ℚ))) (c : CodeChunk ℚ),
      (addToGroups gs c).map Prod.fst =
        if simKey c ∈ gs.map Prod.fst then gs.map Prod.fst
        else gs.map Prod.fst ++ [simKey c] := by
  intro gs
  induction gs with
  | nil => intro c; simp [addToGroups]
  | cons g0 gs ih =>
      intro c
      rw [addToGroups]
      by_cases hk : simKey c = g0.1
      · rw [if_pos hk]
        simp [hk]
      · rw [if_neg hk]
        by_cases hmem : simKey c ∈ gs.map Prod.fst
        · simp only [List.map_cons, ih c, if_pos hmem]
          rw [if_pos]
          simp [hmem]
        · simp only [List.map_cons, ih c, if_neg hmem]
          rw [if_neg]
          · simp
          · simp only [List.mem_cons]
            push_neg
            exact ⟨fun h => hk h, hmem⟩

theorem buildGroups_member_src :
    ∀ (l : List (CodeChunk ℚ)) (gs : List (String × CodeChunk ℚ × List (CodeChunk ℚ)))
      (g : String × CodeChunk ℚ × List (CodeChunk ℚ)) (m : CodeChunk ℚ),
      g ∈ l.foldl (fun gs c => if (7 : ℚ)/10 < c.score then addToGroups gs c else gs) gs →
      m ∈ g.2.1 :: g.2.2 →
      (∃ g0 ∈ gs, m ∈ g0.2.1 :: g0.2.2) ∨ (m ∈ l ∧ (7 : ℚ)/10 < m.score) := by
  intro l
  induction l with
  | nil =>
      intro gs g m hg hm
      exact Or.inl ⟨g, hg, hm⟩
  | cons c l ih =>
      intro gs g m hg hm
      rw [List.foldl_cons] at hg
      rcases ih _ g m hg hm with ⟨g0, hg0, hmg0⟩ | ⟨hml, hsc⟩
      · by_cases hc : (7 : ℚ)/10 < c.score
        · rw [if_pos hc] at hg0
          rcases addToGroups_member_src gs c g0 m hg0 hmg0 with ⟨g1, hg1, hmg1⟩ | h
          · exact Or.inl ⟨g1, hg1, hmg1⟩
          · subst h
            exact Or.inr ⟨by simp, hc⟩
        · rw [if_neg hc] at hg0
          exact Or.inl ⟨g0, hg0, hmg0⟩
      · exact Or.inr ⟨List.mem_cons_of_mem _ hml, hsc⟩

theorem buildGroups_keys_consistent :
    ∀ (l : List (CodeChunk ℚ)) (gs : List (String × CodeChunk ℚ × List (CodeChunk ℚ))),
      (∀ g ∈ gs, ∀ m ∈ g.2.1 :: g.2.2, simKey m = g.1) →
      (∀ g ∈ l.foldl (fun gs c => if (7 : ℚ)/10 < c.score then addToGroups gs c else gs) gs,
        ∀ m ∈ g.2.1 :: g.2.2, simKey m = g.1) := by
  intro l
  induction l with
  | nil => intro gs h; exact h
  | cons c l ih =>
      intro gs h
      rw [List.foldl_cons]
      apply ih
      by_cases hc : (7 : ℚ)/10 < c.score
      · rw [if_pos hc]
        exact addToGroups_keys_consistent gs c h
      · rw [if_neg hc]
        exact h

theorem buildGroups_extends :
    ∀ (l : List (CodeChunk ℚ)) (gs : List (String × CodeChunk ℚ × List (CodeChunk ℚ)))
      (g : String × CodeChunk ℚ × List (CodeChunk ℚ)), g ∈ gs →
      ∃ g' ∈ l.foldl (fun gs c => if (7 : ℚ)/10 < c.score then addToGroups gs c else gs) gs,
        g'.1 = g.1 ∧ ∀ m ∈ g.2.1 :: g.2.2, m ∈ g'.2.1 :: g'.2.2 := by
  intro l
  induction l with
  | nil =>
      intro gs g hg
      exact ⟨g, hg, rfl, fun m hm => hm⟩
  | cons c l ih =>
      intro gs g hg
      rw [List.foldl_cons]
      by_cases hc : (7 : ℚ)/10 < c.score
      · rw [if_pos hc]
        obtain ⟨g1, hg1, hk1, hs1⟩ := addToGroups_extends gs c g hg
        obtain ⟨g', hg', hk', hs'⟩ := ih _ g1 hg1
        exact ⟨g', hg', hk'.trans hk1, fun m hm => hs' m (hs1 m hm)⟩
      · rw [if_neg hc]
        exact ih _ g hg

theorem buildGroups_covers :
    ∀ (l : List (CodeChunk ℚ)) (gs : List (String × CodeChunk ℚ × List (CodeChunk ℚ)))
      (d : CodeChunk ℚ), d ∈ l → (7 : ℚ)/10 < d.score →
      ∃ g ∈ l.foldl (fun gs c => if (7 : ℚ)/10 < c.score then addToGroups gs c else gs) gs,
        g.1 = simKey d ∧ d ∈ g.2.1 :: g.2.2 := by
  intro l
  induction l with
  | nil => intro gs d hd; simp at hd
  | cons c l ih =>
      intro gs d hd hsc
      rw [List.foldl_cons]
      rcases List.mem_cons.mp hd with h | h
      · subst h
        rw [if_pos hsc]
        obtain ⟨g, hg, hk, hmem⟩ := addToGroups_covers gs d
        obtain ⟨g', hg', hk', hs'⟩ := buildGroups_extends l _ g hg
        exact ⟨g', hg', hk'.trans hk, hs' d hmem⟩
      · exact ih _ d h hsc

theorem buildGroups_keys_eq :
    ∀ (l : List (CodeChunk ℚ)) (gs : List (String × CodeChunk ℚ × List (CodeChunk ℚ))),
      (l.foldl (fun gs c => if (7 : ℚ)/10 < c.score then addToGroups gs c else gs) gs).map
          Prod.fst =
        l.foldl
          (fun ks c =>
            if (7 : ℚ)/10 < c.score ∧ ¬ (simKey c ∈ ks) then ks ++ [simKey c] else ks)
          (gs.map Prod.fst) := by
  intro l
  induction l with
  | nil => intro gs; rfl
  | cons c l ih =>
      intro gs
      rw [List.foldl_cons, List.foldl_cons]
      by_cases hc : (7 : ℚ)/10 < c.score
      · rw [if_pos hc]
        by_cases hmem : simKey c ∈ gs.map Prod.fst
        · rw [ih, addToGroups_keys, if_pos hmem, if_neg]
          push_neg
          intro _
          exact hmem
        · rw [ih, addToGroups_keys, if_neg hmem, if_pos ⟨hc, hmem⟩]
      · rw [if_neg hc, ih, if_neg]
        intro hand
        exact hc hand.1

theorem appendKeys_nodup :
    ∀ (l : List (CodeChunk ℚ)) (ks : List String), ks.Nodup →
      (l.foldl
          (fun ks c =>
            if (7 : ℚ)/10 < c.score ∧ ¬ (simKey c ∈ ks) then ks ++ [simKey c] else ks)
          ks).Nodup := by
  intro l
  induction l with
  | nil => intro ks h; exact h
  | cons c l ih =>
      intro ks h
      rw [List.foldl_cons]
      apply ih
      by_cases hcond : (7 : ℚ)/10 < c.score ∧ ¬ (simKey c ∈ ks)
      · rw [if_pos hcond]
        rw [List.nodup_append]
        refine ⟨h, by simp, ?_⟩
        intro a ha hb
        simp at hb
        subst hb
        exact hcond.2 ha
      · rw [if_neg hcond]
        exact h

/-- Claim C7: `_extract_similar_implementations` returns at most 5 chunks, all
with score above 0.7 and drawn from the input; the entries carry pairwise
distinct grouping keys (hence at most one entry per (language,
filename-basename) group), appear in group-insertion order (the first-occurrence
order of the keys of the high-scoring chunks, not re-sorted by score), and each
entry attains the maximal score of its group. -/
theorem extract_similar_implementations_spec (l : List (CodeChunk ℚ)) :
    (_extract_similar_implementations l).length ≤ 5 ∧
    (∀ c ∈ _extract_similar_implementations l, (7 : ℚ)/10 < c.score ∧ c ∈ l) ∧
    (_extract_similar_implementations l).map simKey = (firstOccKeys l).take 5 ∧
    ((_extract_similar_implementations l).map simKey).Nodup ∧
    (∀ c ∈ _extract_similar_implementations l, ∀ d ∈ l, (7 : ℚ)/10 < d.score →
        simKey d = simKey c → d.score ≤ c.score) := by
  have hpoint : ∀ g ∈ buildGroups l, simKey (maxByScore g.2.1 g.2.2) = g.1 := by
    intro g hg
    rw [buildGroups] at hg
    exact buildGroups_keys_consistent l [] (by simp) g hg _ (maxByScore_mem _ _)
  have hkeysmap : (buildGroups l).map Prod.fst = firstOccKeys l := by
    have h := buildGroups_keys_eq l []
    simpa [buildGroups, firstOccKeys] using h
  have hnodup : (firstOccKeys l).Nodup := by
    have h := appendKeys_nodup l [] (by simp)
    simpa [firstOccKeys] using h
  have hmembers : ∀ c ∈ _extract_similar_implementations l,
      ∃ g ∈ buildGroups l, c = maxByScore g.2.1 g.2.2 := by
    intro c hc
    rw [_extract_similar_implementations] at hc
    have hc2 := List.take_subset _ _ hc
    obtain ⟨g, hg, rfl⟩ := List.mem_map.mp hc2
    exact ⟨g, hg, rfl⟩
  have hmapeq :
      (_extract_similar_implementations l).map simKey = (firstOccKeys l).take 5 := by
    rw [_extract_similar_implementations, List.map_take, List.map_map]
    have hcongr : List.map (simKey ∘ fun g => maxByScore g.2.1 g.2.2) (buildGroups l) =
        List.map Prod.fst (buildGroups l) :=
      List.map_congr_left (fun g hg => hpoint g hg)
    rw [hcongr, hkeysmap]
  refine ⟨?_, ?_, hmapeq, ?_, ?_⟩
  · rw [_extract_similar_implementations]
    exact List.length_take_le _ _
  · intro c hc
    obtain ⟨g, hg, rfl⟩ := hmembers c hc
    have hmem := maxByScore_mem g.2.2 g.2.1
    rw [buildGroups] at hg
    rcases buildGroups_member_src l [] g _ hg hmem with ⟨g0, hg0, _⟩ | ⟨hml, hsc⟩
    · simp at hg0
    · exact ⟨hsc, hml⟩
  · rw [hmapeq]
    exact hnodup.sublist (List.take_sublist _ _)
  · intro c hc d hd hd7 hkey
    obtain ⟨g, hg, rfl⟩ := hmembers c hc
    obtain ⟨g', hg', hk', hd'⟩ := by
      have h := buildGroups_covers l [] d hd hd7
      rw [show (l.foldl
            (fun gs c => if (7 : ℚ)/10 < c.score then addToGroups gs c else gs) []) =
          buildGroups l from rfl] at h
      exact h
    have hgg : g' = g := by
      apply List.inj_on_of_nodup_map (hkeysmap ▸ hnodup) hg' hg
      exact hk'.trans (hkey.trans (hpoint g hg))
    subst hgg
    exact maxByScore_ge g'.2.2 g'.2.1 d hd'

/-- Witness for `extract_similar_implementations_spec` at a concrete list with
two chunks in the same (language, basename) group: the lower-scoring one is
dominated by the returned entry. -/
theorem extract_similar_implementations_spec_witness :
    (⟨("a.py"), (""), ("py"), (4/5 : ℚ), [], ("")⟩ : CodeChunk ℚ).score ≤
      (⟨("b/a.py"), (""), ("py"), (9/10 : ℚ), [], ("")⟩ : CodeChunk ℚ).score := by
  have h1 : (7 : ℚ)/10 < (4 : ℚ)/5 := by norm_num
  have h2 : (7 : ℚ)/10 < (9 : ℚ)/10 := by norm_num
  have h3 : (4 : ℚ)/5 < (9 : ℚ)/10 := by norm_num
  have hab : simKey (⟨("b/a.py"), (""), ("py"), (9/10 : ℚ), [], ("")⟩ : CodeChunk ℚ) =
      simKey (⟨("a.py"), (""), ("py"), (4/5 : ℚ), [], ("")⟩ : CodeChunk ℚ) := by
    decide
  have hres : _extract_similar_implementations
      [⟨("a.py"), (""), ("py"), (4/5 : ℚ), [], ("")⟩,
       ⟨("b/a.py"), (""), ("py"), (9/10 : ℚ), [], ("")⟩] =
      [⟨("b/a.py"), (""), ("py"), (9/10 : ℚ), [], ("")⟩] := by
    rw [_extract_similar_implementations, buildGroups]
    rw [List.foldl_cons]
    rw [if_pos h1, List.foldl_cons, if_pos h2, List.foldl_nil]
    rw [addToGroups, addToGroups, if_pos hab]
    simp [maxByScore, h3]
  exact (extract_similar_implementations_spec
      [⟨("a.py"), (""), ("py"), (4/5 : ℚ), [], ("")⟩,
       ⟨("b/a.py"), (""), ("py"), (9/10 : ℚ), [], ("")⟩]).2.2.2.2
    (⟨("b/a.py"), (""), ("py"), (9/10 : ℚ), [], ("")⟩ : CodeChunk ℚ)
    (by rw [hres]; simp)
    (⟨("a.py"), (""), ("py"), (4/5 : ℚ), [], ("")⟩ : CodeChunk ℚ)
    (by simp) h1 hab.symm

/-- Witness for `generate_ticket_error_shape` at a concrete failure message. -/
theorem generate_ticket_error_shape_witness :
    (_generate_ticket_with_llm (.error ("boom"))).lookup ("title") =
        some (.str ("Error generating ticket")) ∧
    (_generate_ticket_with_llm (.error ("boom"))).lookup ("raw_markdown") = none :=
  ⟨(generate_ticket_error_shape ("boom")).1,
   (generate_ticket_error_shape ("boom")).2.2.2.2.1⟩

/-- Witness for `parse_generated_ticket_total` at the empty input. -/
theorem parse_generated_ticket_total_witness :
    (_parse_generated_ticket ("")).lookup ("description") = some (.str ("")) ∧
    (_parse_generated_ticket ("")).lookup ("raw_markdown") = some (.str ("")) :=
  ⟨(parse_generated_ticket_total ("")).2.1,
   (parse_generated_ticket_total ("")).2.2.2.2⟩

/-- Witness for `detect_patterns_mvc_iff`: filenames covering all three
substrings produce the MVC label. -/
theorem detect_patterns_mvc_iff_witness :
    ("MVC") ∈ _detect_architectural_patterns
      [⟨("model.py"), (""), (""), 1, [], ("")⟩,
       ⟨("view.py"), (""), (""), 1, [], ("")⟩,
       ⟨("controller.py"), (""), (""), 1, [], ("")⟩] :=
  (detect_patterns_mvc_iff
      [⟨("model.py"), (""), (""), 1, [], ("")⟩,
       ⟨("view.py"), (""), (""), 1, [], ("")⟩,
       ⟨("controller.py"), (""), (""), 1, [], ("")⟩]).mpr
    ⟨⟨⟨("model.py"), (""), (""), 1, [], ("")⟩, by simp, by decide⟩,
     ⟨⟨("view.py"), (""), (""), 1, [], ("")⟩, by simp, by decide⟩,
     ⟨⟨("controller.py"), (""), (""), 1, [], ("")⟩, by simp, by decide⟩⟩

/-- Claim C2 (counterexample): the sanitizer is not idempotent.  Stripping the
fenced code block inside `**Prior```a```ity:** High` splices together the
disallowed bold label `**Priority:**`, which only a second pass removes. -/
theorem sanitize_ticket_counterexample :
    _sanitize_ticket (_sanitize_ticket ("**Prior```a```ity:** High")) ≠
      _sanitize_ticket ("**Prior```a```ity:** High") := by
  decide

/-- A label scanner whose literal starts with `**` changes nothing on text
with no `**` substring. -/
theorem subLabelF_id (lit : List Char)
    (hpre : (("**").data).isPrefixOf lit = true) :
    ∀ (f : Nat) (s : List Char), ¬ ((("**").data) <:+: s) →
      subLabelF lit f s = s := by
  intro f
  induction f with
  | zero => intro s _; rfl
  | succ f ih =>
      intro s hocc
      cases s with
      | nil => rfl
      | cons c cs =>
          rw [subLabelF]
          rw [if_neg]
          · rw [ih cs]
            intro h
            exact hocc (h.trans (List.suffix_cons c cs).isInfix)
          · intro hmatch
            exact hocc
              (((List.isPrefixOf_iff_prefix.mp hpre).trans
                (List.isPrefixOf_iff_prefix.mp hmatch)).isInfix)

/-- The fold of the nine label scanners changes nothing on text with no `**`
substring. -/
theorem stage1_id (s : List Char) (hocc : ¬ ((("**").data) <:+: s)) :
    disallowedLits.foldl (fun acc lit => subLabelF lit acc.length acc) s = s := by
  simp only [disallowedLits, List.foldl_cons, List.foldl_nil]
  rw [subLabelF_id _ (by decide) _ _ hocc, subLabelF_id _ (by decide) _ _ hocc,
    subLabelF_id _ (by decide) _ _ hocc, subLabelF_id _ (by decide) _ _ hocc,
    subLabelF_id _ (by decide) _ _ hocc, subLabelF_id _ (by decide) _ _ hocc,
    subLabelF_id _ (by decide) _ _ hocc, subLabelF_id _ (by decide) _ _ hocc,
    subLabelF_id _ (by decide) _ _ hocc]

/-- The example-section scanner changes nothing on text with no `##` substring. -/
theorem subExampleF_id :
    ∀ (f : Nat) (s : List Char), ¬ ((("##").data) <:+: s) →
      subExampleF f s = s := by
  intro f
  induction f with
  | zero => intro s _; rfl
  | succ f ih =>
      intro s hocc
      cases s with
      | nil => rfl
      | cons c cs =>
          rw [subExampleF]
          rw [if_neg]
          · rw [ih cs]
            intro h
            exact hocc (h.trans (List.suffix_cons c cs).isInfix)
          · intro hmatch
            rw [isExHeader, Bool.and_eq_true] at hmatch
            exact hocc ((List.isPrefixOf_iff_prefix.mp hmatch.1).isInfix)

/-- The fence scanner changes nothing on text with no triple-backquote
substring. -/
theorem subFencesF_id :
    ∀ (f : Nat) (s : List Char), ¬ ((("```").data) <:+: s) →
      subFencesF f s = s := by
  intro f
  induction f with
  | zero => intro s _; rfl
  | succ f ih =>
      intro s hocc
      cases s with
      | nil => rfl
      | cons c cs =>
          rw [subFencesF]
          rw [if_neg]
          · rw [ih cs]
            intro h
            exact hocc (h.trans (List.suffix_cons c cs).isInfix)
          · intro hmatch
            rw [Bool.and_eq_true] at hmatch
            obtain ⟨hc, hpre⟩ := hmatch
            apply hocc
            obtain ⟨t, ht⟩ := List.isPrefixOf_iff_prefix.mp hpre
            have hc' : c = btick := by simpa using hc
            refine List.IsPrefix.isInfix ⟨t, ?_⟩
            rw [show (("```").data) = [btick, btick, btick] from by decide]
            rw [hc']
            simp only [List.cons_append, List.nil_append]
            rw [show btick :: btick :: t = cs from ht]

theorem mem_collapseRun (n : Nat) (c : Char) (hc : c ∈ collapseRun n) : c = '\n' := by
  rw [collapseRun] at hc
  by_cases h3 : 3 ≤ n
  · rw [if_pos h3] at hc
    simpa using hc
  · rw [if_neg h3] at hc
    exact List.eq_of_mem_replicate hc

/-- A nonempty newline-free pattern occurring in `A ++ B` with `A` all
newlines occurs in `B`. -/
theorem infix_skip_nlrun (p : List Char) (hne : p ≠ []) (hnl : ¬ ('\n' ∈ p)) :
    ∀ (A B : List Char), (∀ c ∈ A, c = '\n') → p <:+: A ++ B → p <:+: B := by
  intro A
  induction A with
  | nil => intro B _ h; simpa using h
  | cons a A ih =>
      intro B hA h
      rw [List.cons_append, List.infix_cons_iff] at h
      rcases h with hpre | hinf
      · exfalso
        cases p with
        | nil => exact hne rfl
        | cons q qs =>
            obtain ⟨t, ht⟩ := hpre
            rw [List.cons_append] at ht
            have hq : q = a := (List.cons.injEq _ _ _ _).mp ht |>.1
            apply hnl
            rw [hq, hA a (List.mem_cons_self a A)]
            exact List.mem_cons_self _ _
      · exact ih B (fun c hc => hA c (List.mem_cons_of_mem _ hc)) hinf

theorem collapseRun_head (n : Nat) (hn : 1 ≤ n) :
    ∃ t, collapseRun n = '\n' :: t := by
  rw [collapseRun]
  by_cases h3 : 3 ≤ n
  · exact ⟨[ '\n' ], by rw [if_pos h3]⟩
  · rw [if_neg h3]
    cases n with
    | zero => omega
    | succ m => exact ⟨List.replicate m '\n', by rw [List.replicate_succ]⟩

theorem collapseAux_head :
    ∀ (s : List Char) (n : Nat), 1 ≤ n → ∃ t, collapseAux n s = '\n' :: t := by
  intro s
  induction s with
  | nil => intro n hn; exact collapseRun_head n hn
  | cons c cs ih =>
      intro n hn
      by_cases hc : c = '\n'
      · rw [collapseAux, if_pos hc]
        exact ih (n + 1) (by omega)
      · rw [collapseAux, if_neg hc]
        obtain ⟨t, ht⟩ := collapseRun_head n hn
        exact ⟨t ++ c :: collapseAux 0 cs, by rw [ht, List.cons_append]⟩

/-- A nonempty newline-free prefix of the collapsed text is a prefix of the
original text. -/
theorem collapse_prefix_pres :
    ∀ (s p : List Char), p ≠ [] → ¬ ('\n' ∈ p) → p <+: collapseAux 0 s → p <+: s := by
  intro s
  induction s with
  | nil =>
      intro p _ _ h
      simpa [collapseAux, collapseRun] using h
  | cons c cs ih =>
      intro p hne hnl h
      by_cases hc : c = '\n'
      · exfalso
        subst hc
        rw [collapseAux, if_pos rfl] at h
        obtain ⟨t, ht⟩ := collapseAux_head cs 1 (by omega)
        rw [ht] at h
        cases p with
        | nil => exact hne rfl
        | cons q qs =>
            obtain ⟨u, hu⟩ := h
            rw [List.cons_append] at hu
            have hq : q = '\n' := (List.cons.injEq _ _ _ _).mp hu |>.1
            exact hnl (by rw [← hq]; exact List.mem_cons_self _ _)
      · rw [collapseAux, if_neg hc] at h
        rw [show collapseRun 0 = [] from rfl, List.nil_append] at h
        cases p with
        | nil => exact List.nil_prefix
        | cons q qs =>
            obtain ⟨u, hu⟩ := h
            rw [List.cons_append] at hu
            obtain ⟨hq, hrest⟩ := (List.cons.injEq _ _ _ _).mp hu
            subst hq
            by_cases hqs : qs = []
            · subst hqs
              exact ⟨cs, rfl⟩
            · have hqs' : qs <+: cs :=
                ih qs hqs (fun hm => hnl (List.mem_cons_of_mem _ hm)) ⟨u, hrest⟩
              obtain ⟨v, hv⟩ := hqs'
              exact ⟨v, by rw [List.cons_append, hv]⟩

/-- A nonempty newline-free substring of the collapsed text is a substring of
the original text. -/
theorem collapse_infix_pres :
    ∀ (s : List Char) (n : Nat) (p : List Char), p ≠ [] → ¬ ('\n' ∈ p) →
      p <:+: collapseAux n s → p <:+: s := by
  intro s
  induction s with
  | nil =>
      intro n p hne hnl h
      rw [collapseAux] at h
      have h2 : p <:+: ([] : List Char) := by
        have := infix_skip_nlrun p hne hnl (collapseRun n) []
          (fun c hc => mem_collapseRun n c hc)
        apply this
        simpa using h
      exact absurd (List.sublist_nil.mp h2.sublist) hne
  | cons c cs ih =>
      intro n p hne hnl h
      by_cases hc : c = '\n'
      · subst hc
        rw [collapseAux, if_pos rfl] at h
        exact (ih (n + 1) p hne hnl h).trans (List.suffix_cons _ _).isInfix
      · rw [collapseAux, if_neg hc] at h
        have h2 : p <:+: c :: collapseAux 0 cs :=
          infix_skip_nlrun p hne hnl (collapseRun n) _
            (fun x hx => mem_collapseRun n x hx) h
        rw [List.infix_cons_iff] at h2
        rcases h2 with hpre | hinf
        · cases p with
          | nil => exact absurd rfl hne
          | cons q qs =>
              obtain ⟨u, hu⟩ := hpre
              rw [List.cons_append] at hu
              obtain ⟨hq, hrest⟩ := (List.cons.injEq _ _ _ _).mp hu
              subst hq
              by_cases hqs : qs = []
              · subst hqs
                have hp : [q] <+: q :: cs := ⟨cs, rfl⟩
                exact hp.isInfix
              · have hqs' : qs <+: cs :=
                  collapse_prefix_pres cs qs hqs
                    (fun hm => hnl (List.mem_cons_of_mem _ hm)) ⟨u, hrest⟩
                obtain ⟨v, hv⟩ := hqs'
                have hp : q :: qs <+: q :: cs := ⟨v, by rw [List.cons_append, hv]⟩
                exact hp.isInfix
        · exact (ih 0 p hne hnl hinf).trans (List.suffix_cons _ _).isInfix

/-- No position starts a run of three newlines. -/
def no3nl : List Char → Bool
  | [] => true
  | c :: cs => !(c = '\n' && [ '\n', '\n' ].isPrefixOf cs) && no3nl cs

theorem no3nl_tail (c : Char) (cs : List Char) (h : no3nl (c :: cs) = true) :
    no3nl cs = true := by
  rw [no3nl, Bool.and_eq_true] at h
  exact h.2

theorem no3nl_append_right :
    ∀ (X y : List Char), no3nl (X ++ y) = true → no3nl y = true := by
  intro X
  induction X with
  | nil => intro y h; simpa using h
  | cons c cs ih =>
      intro y h
      rw [List.cons_append] at h
      exact ih y (no3nl_tail _ _ h)

theorem no3nl_of_prefix :
    ∀ (y x : List Char), x <+: y → no3nl y = true → no3nl x = true := by
  intro y
  induction y with
  | nil =>
      intro x hx _
      rw [List.prefix_nil.mp hx]
      rfl
  | cons d ys ih =>
      intro x hx h
      cases x with
      | nil => rfl
      | cons c xs =>
          obtain ⟨t, ht⟩ := hx
          rw [List.cons_append] at ht
          obtain ⟨hc, hrest⟩ := (List.cons.injEq _ _ _ _).mp ht
          subst hc
          rw [no3nl, Bool.and_eq_true] at h ⊢
          refine ⟨?_, ih xs ⟨t, hrest⟩ h.2⟩
          have h1 := h.1
          simp only [Bool.not_eq_true', Bool.and_eq_false_iff] at h1 ⊢
          rcases h1 with h1 | h1
      
      
      
      
      
      
          · exact Or.inl h1
          · right
            rw [← Bool.not_eq_true] at h1 ⊢
            intro hpre
            apply h1
            rw [ List.isPrefixOf_iff_prefix] at hpre ⊢
            exact hpre.trans ⟨t, hrest⟩

theorem collapseRun_cases (n : Nat) :
    collapseRun n = [] ∨ collapseRun n = [ '\n' ] ∨ collapseRun n = [ '\n', '\n' ] := by
  rw [collapseRun]
  by_cases h3 : 3 ≤ n
  · rw [if_pos h3]
    tauto
  · rw [if_neg h3]
    have : n = 0 ∨ n = 1 ∨ n = 2 := by omega
    rcases this with h | h | h <;> subst h <;> simp [List.replicate]

theorem no3nl_collapseAux :
    ∀ (s : List Char) (n : Nat), no3nl (collapseAux n s) = true := by
  intro s
  induction s with
  | nil =>
      intro n
      rw [collapseAux]
      rcases collapseRun_cases n with h | h | h <;> rw [h] <;> decide
  | cons c cs ih =>
      intro n
      by_cases hc : c = '\n'
      · rw [collapseAux, if_pos hc]
        exact ih (n + 1)
      · rw [collapseAux, if_neg hc]
        have hz := ih 0
        rcases collapseRun_cases n with h | h | h <;> rw [h] <;>
          simp [no3nl, List.isPrefixOf, hc, hz, Ne.symm hc]

theorem collapse_id_general :
    ∀ (y : List Char) (n : Nat), n ≤ 2 →
      no3nl (List.replicate n '\n' ++ y) = true →
      collapseAux n y = List.replicate n '\n' ++ y := by
  intro y
  induction y with
  | nil =>
      intro n hn _
      rw [collapseAux, collapseRun, if_neg (by omega), List.append_nil]
  | cons c cs ih =>
      intro n hn h
      by_cases hc : c = '\n'
      · subst hc
        rw [collapseAux, if_pos rfl]
        have hn1 : n ≤ 1 := by
          by_contra hgt
          have hn2 : n = 2 := by omega
          subst hn2
          have h' : no3nl ('\n' :: '\n' :: '\n' :: cs) = true := by
            simpa [List.replicate] using h
          simp [no3nl, List.isPrefixOf] at h'
        have heq : List.replicate n '\n' ++ '\n' :: cs =
            List.replicate (n + 1) '\n' ++ cs := by
          rw [List.replicate_succ']
          simp
        rw [ih (n + 1) (by omega) (by rw [← heq]; exact h), heq]
      · rw [collapseAux, if_neg hc, collapseRun, if_neg (by omega)]
        have hcs : no3nl cs = true := by
          have h2 := no3nl_append_right (List.replicate n '\n') _ h
          exact no3nl_tail _ _ h2
        rw [ih 0 (by omega) (by simpa using hcs)]
        simp

theorem pyStrip_infix_self (l : List Char) : pyStrip l <:+: l := by
  rw [pyStrip]
  exact ( List.rdropWhile_prefix _ _).isInfix.trans (List.dropWhile_suffix _).isInfix

theorem pyStrip_idem (l : List Char) : pyStrip (pyStrip l) = pyStrip l := by
  rw [pyStrip, pyStrip]
  have hdrop : (((l.dropWhile isPyWS).rdropWhile isPyWS).dropWhile isPyWS) =
      (l.dropWhile isPyWS).rdropWhile isPyWS := by
    cases hb : (l.dropWhile isPyWS).rdropWhile isPyWS with
    | nil => rfl
    | cons q qs =>
        have hpre := List.rdropWhile_prefix isPyWS (l.dropWhile isPyWS)
        rw [hb] at hpre
        obtain ⟨t, ht⟩ := hpre
        have hq : ¬ (isPyWS q = true) := by
          intro hws
          have hidem : (l.dropWhile isPyWS).dropWhile isPyWS = l.dropWhile isPyWS :=
            List.dropWhile_idempotent isPyWS l
          rw [← ht, List.cons_append, List.dropWhile_cons_of_pos hws] at hidem
          have hlen := congrArg List.length hidem
          have hle : ((qs ++ t).dropWhile isPyWS).length ≤ (qs ++ t).length :=
            (List.dropWhile_sublist isPyWS).length_le
          simp at hlen hle
          omega
        rw [List.dropWhile_cons_of_neg hq]
  rw [hdrop, List.rdropWhile_idempotent]

theorem no3nl_pyStrip (l : List Char) (h : no3nl l = true) :
    no3nl (pyStrip l) = true := by
  rw [pyStrip]
  apply no3nl_of_prefix _ _ ( List.rdropWhile_prefix _ _)
  obtain ⟨t, ht⟩ := List.dropWhile_suffix isPyWS (l := l)
  exact no3nl_append_right t _ (by rw [ht]; exact h)

theorem collapse_id_of_no3 (y : List Char) (h : no3nl y = true) :
    collapseAux 0 y = y := by
  have h2 := collapse_id_general y 0 (by omega) (by simpa using h)
  simpa using h2

/-- Claim C2 (amended): the sanitizer is idempotent on every input containing
no bold marker `**`, no heading marker `##`, and no fence marker ``` ``` ```
(on such inputs the three removal stages change nothing, and the
newline-collapsing and stripping stages are jointly idempotent).  On general
inputs idempotence fails: see `sanitize_ticket_counterexample`, where fence
stripping splices together a new disallowed bold-label line. -/
theorem sanitize_ticket_idem_of_clean (s : String)
    (h1 : ¬ ((("**").data) <:+: s.data))
    (h2 : ¬ ((("##").data) <:+: s.data))
    (h3 : ¬ ((("```").data) <:+: s.data)) :
    _sanitize_ticket (_sanitize_ticket s) = _sanitize_ticket s := by
  have hpass : ∀ (u : String), ¬ ((("**").data) <:+: u.data) →
      ¬ ((("##").data) <:+: u.data) → ¬ ((("```").data) <:+: u.data) →
      _sanitize_ticket u = (pyStrip (collapseAux 0 u.data)).asString := by
    intro u hu1 hu2 hu3
    simp only [_sanitize_ticket]
    rw [stage1_id u.data hu1, subExampleF_id _ _ hu2, subFencesF_id _ _ hu3]
  have hyd : ((pyStrip (collapseAux 0 s.data)).asString).data =
      pyStrip (collapseAux 0 s.data) := rfl
  have hy1 : ¬ ((("**").data) <:+: pyStrip (collapseAux 0 s.data)) := by
    intro hc
    exact h1 (collapse_infix_pres s.data 0 _ (by decide) (by decide)
      (hc.trans (pyStrip_infix_self _)))
  have hy2 : ¬ ((("##").data) <:+: pyStrip (collapseAux 0 s.data)) := by
    intro hc
    exact h2 (collapse_infix_pres s.data 0 _ (by decide) (by decide)
      (hc.trans (pyStrip_infix_self _)))
  have hy3 : ¬ ((("```").data) <:+: pyStrip (collapseAux 0 s.data)) := by
    intro hc
    exact h3 (collapse_infix_pres s.data 0 _ (by decide) (by decide)
      (hc.trans (pyStrip_infix_self _)))
  have hyno3 : no3nl (pyStrip (collapseAux 0 s.data)) = true :=
    no3nl_pyStrip _ (no3nl_collapseAux s.data 0)
  rw [hpass s h1 h2 h3]
  rw [hpass _ (by rw [hyd]; exact hy1) (by rw [hyd]; exact hy2) (by rw [hyd]; exact hy3)]
  rw [hyd, collapse_id_of_no3 _ hyno3, pyStrip_idem]

/-- Witness for `sanitize_ticket_idem_of_clean` at a concrete marker-free input. -/
theorem sanitize_ticket_idem_of_clean_witness :
    _sanitize_ticket (_sanitize_ticket ("Title\n\n\n\nBody  ")) =
      _sanitize_ticket ("Title\n\n\n\nBody  ") :=
  sanitize_ticket_idem_of_clean ("Title\n\n\n\nBody  ")
    (by decide) (by decide) (by decide)
